import Mathlib

/-!
# Verification of the Shironeko Archive application logic

Shallow embedding of the TypeScript source of the `shironeko-archive`
repository.  JavaScript strings are modelled as `List Char` (named `Str`),
optional fields (`field?: T`) as `Option`, and the handful of stateful
operations (React state updates, Firestore calls) as explicit state-passing
functions.  Every definition is translated from the source file named in its
doc comment.
-/

namespace Shironeko

/-- JavaScript strings, modelled as lists of characters. -/
abbrev Str := List Char

/-- Whitespace characters relevant to JavaScript `String.prototype.trim`
(space, tab, newline, carriage return, vertical tab, form feed). -/
def isWs (c : Char) : Bool :=
  c = ' ' || c = '\t' || c = '\n' || c = '\r' || c = '\x0b' || c = '\x0c'

/-- JavaScript `s.trimStart()`. -/
def trimLeft (s : Str) : Str := s.dropWhile isWs

/-- JavaScript `s.trimEnd()`. -/
def trimRight (s : Str) : Str := (s.reverse.dropWhile isWs).reverse

/-- JavaScript `s.trim()`. -/
def trim (s : Str) : Str := trimLeft (trimRight s)

/-- JavaScript `s.split(sep)` for a single-character separator: always
returns at least one (possibly empty) segment. -/
def splitOnChar (sep : Char) : Str → List Str
  | [] => [[]]
  | c :: rest =>
    if c = sep then [] :: splitOnChar sep rest
    else (splitOnChar sep rest).modifyHead (c :: ·)

/-- JavaScript `parts.join(sep)` for a single-character separator. -/
def joinSep (sep : Char) : List Str → Str
  | [] => []
  | [s] => s
  | s :: rest => s ++ sep :: joinSep sep rest

/-- Lexicographic `≤` on strings via code points (JavaScript `<=` on
strings restricted to the comparisons the code performs). -/
def strLe : Str → Str → Bool
  | [], _ => true
  | _ :: _, [] => false
  | a :: xs, b :: ys =>
    if a.toNat < b.toNat then true
    else if b.toNat < a.toNat then false
    else strLe xs ys

/-- JavaScript `v || dflt` for an optional string `v` (both `undefined` and
the empty string are falsy). -/
def jsOr (v : Option Str) (dflt : Str) : Str :=
  match v with
  | none => dflt
  | some s => if s = [] then dflt else s

/-- Truthiness of an optional string (`undefined` and `''` are falsy). -/
def strTruthy (v : Option Str) : Bool :=
  match v with
  | none => false
  | some s => !(s.isEmpty)

/-! ## Data model (`types.ts`) -/

/-- Interface `Article` from `types.ts`: optional fields are `Option`s. -/
structure Article where
  id : Str
  title : Str
  date : Str
  readTime : Str
  preview : Str
  content : Str
  imageUrl : Option Str := none
  images : Option (List Str) := none
  location : Option Str := none
  musicUrl : Option Str := none
  isDraft : Option Bool := none
  isPublished : Option Bool := none
  publishedAt : Option Str := none
  authorId : Option Str := none
  categoryId : Option Str := none
deriving DecidableEq, Repr

/-- Interface `Category` from `types.ts`. -/
structure Category where
  id : Str
  title : Str
  icon : Str
  colorHex : Str
  backgroundImage : Str
  articles : List Article
  isLightCover : Option Bool := none
deriving DecidableEq, Repr

/-! ## Local/remote merge (`App.tsx`, merge effect) -/

/-- JavaScript `Map` over string keys, as an insertion-ordered association
list.  `Map.prototype.set` updates an existing key in place (keeping its
position) and appends a fresh key at the end. -/
def mapSet (m : List (Str × Article)) (k : Str) (v : Article) :
    List (Str × Article) :=
  if m.any (fun p => p.1 = k) then
    m.map (fun p => if p.1 = k then (k, v) else p)
  else m ++ [(k, v)]

/-- Folding `forEach (article => articleMap.set(article.id, article))`. -/
def mapSetAll (m : List (Str × Article)) (arts : List Article) :
    List (Str × Article) :=
  arts.foldl (fun acc a => mapSet acc a.id a) m

/-- The body of the merge effect in `App.tsx` for one category: local
articles are inserted first, then the published articles of the category
override entries with the same id; the category's other fields are copied
by the spread. -/
def mergeCategory (publishedArticles : List Article) (category : Category) :
    Category :=
  let publishedForCategory :=
    publishedArticles.filter (fun a => a.categoryId = some category.id)
  let localArticles := category.articles
  let articleMap := mapSetAll (mapSetAll [] localArticles) publishedForCategory
  { category with articles := articleMap.map (·.2) }

/-- The merge effect of `App.tsx`: `categories.map(category => ...)`. -/
def mergeCategories (categories : List Category)
    (publishedArticles : List Article) : List Category :=
  categories.map (mergeCategory publishedArticles)

/-! ## Reading view (`OpenBook.tsx`) -/

/-- Translation of the `visibleArticles` memo in `OpenBook`: `category.articles.filter(a => !a.isDraft)`
(an absent `isDraft` is falsy). -/
def visibleArticles (category : Category) : List Article :=
  category.articles.filter (fun a => !(a.isDraft.getD false))

/-- The initializer of `activeArticle` in `OpenBook`: the article matching
the id from the URL when one is present, the first visible article
otherwise. -/
def initialActiveArticle (category : Category) (activeArticleId : Option Str) :
    Option Article :=
  if strTruthy activeArticleId then
    (visibleArticles category).find?
      (fun a => a.id = activeArticleId.getD [])
  else (visibleArticles category).head?

/-! ## Routing sync (`App.tsx`) -/

/-- Union `AnimationPhase` in `App.tsx`. -/
inductive AnimationPhase where
  | IDLE | ZOOMING | READING | CLOSING
deriving DecidableEq, Repr

/-- The view state the routing-sync effect reads and writes. -/
structure AppState where
  animationPhase : AnimationPhase
  selectedCategory : Option Category
  currentArticle : Option Article
deriving DecidableEq, Repr

/-- Path segments: `path.split('/').filter(p => p !== '')`. -/
def routeParts (path : Str) : List Str :=
  (splitOnChar '/' path).filter (fun p => p ≠ [])

/-- Translation of the `Sync Category State` block of the routing-sync effect in
`App.tsx`: select the category found for the path (entering `READING`
from `IDLE` for a deep link). -/
def syncCategoryState (cat : Category) (s : AppState) : AppState :=
  if s.selectedCategory.map (·.id) ≠ some cat.id then
    if s.animationPhase = .IDLE then
      { s with selectedCategory := some cat, animationPhase := .READING }
    else { s with selectedCategory := some cat }
  else s

/-- The routing-sync effect of `App.tsx` as a state transition on the
view state, given the merged categories and the URL path.  The
`handleBackToHome(true)` branch is modelled by its synchronous effect
(entering the `CLOSING` phase); the deferred timeout completing that
animation is outside this transition. -/
def routingSync (mergedCategories : List Category) (path : Str)
    (s : AppState) : AppState :=
  let parts := routeParts path
  match parts.head? with
  | none =>
    if s.animationPhase = .READING ∨ s.animationPhase = .ZOOMING then
      { s with animationPhase := .CLOSING }
    else if s.selectedCategory.isSome then
      { animationPhase := .IDLE, selectedCategory := none,
        currentArticle := none }
    else s
  | some catId =>
    match mergedCategories.find? (fun c => c.id = catId) with
    | none => s
    | some cat =>
      let s1 := syncCategoryState cat s
      match parts[1]? with
      | some artId =>
        match cat.articles.find? (fun a => a.id = artId) with
        | some art =>
          if s1.currentArticle.map (·.id) ≠ some art.id then
            { s1 with currentArticle := some art }
          else s1
        | none => s1
      | none =>
        if s1.currentArticle.isSome then
          { s1 with currentArticle := none }
        else s1

/-! ## Remote article service (`services/articleService.ts`)

The Firestore `articles` collection is modelled as an insertion-ordered
association list from document id to article data, and `auth.currentUser`
as an `Option User`.  Each operation returns its result together with the
(possibly updated) store; a thrown error is `Except.error` with the
message, and the store it is paired with is the untouched input store. -/

/-- A Firebase auth user. -/
structure User where
  uid : Str
deriving DecidableEq, Repr

/-- The remote document store for the `articles` collection. -/
abbrev FireStore := List (Str × Article)

/-- Descending order on `publishedAt` (`orderBy('publishedAt', 'desc')`):
`x` comes before `y` when `y`'s key is `≤` `x`'s. -/
def pubDesc (x y : Article) : Prop :=
  strLe (y.publishedAt.getD []) (x.publishedAt.getD []) = true

instance : DecidableRel pubDesc := fun _ _ => decEq _ _

/-- Translation of `publishArticle` from `articleService.ts`: requires an authenticated
user, then writes the article (with `categoryId`, `isPublished`,
`publishedAt`, `authorId`, `updatedAt` metadata) at its id with `setDoc`.
`now` stands for `new Date().toISOString()`. -/
def publishArticle (currentUser : Option User) (now : Str)
    (article : Article) (categoryId : Str) (store : FireStore) :
    Except Str Unit × FireStore :=
  match currentUser with
  | none => (.error "Must be authenticated to publish articles".toList, store)
  | some user =>
    let articleData :=
      { article with
        categoryId := some categoryId,
        isPublished := some true,
        publishedAt := some now,
        authorId := some user.uid }
    (.ok (), mapSet store article.id articleData)

/-- Translation of `updatePublishedArticle` from `articleService.ts`: requires an
authenticated user, then merges the updates into the stored document with
`updateDoc` (which fails when the document does not exist).  The partial
update record is modelled as a merge function on the stored data. -/
def updatePublishedArticle (currentUser : Option User)
    (articleId : Str) (updates : Article → Article) (store : FireStore) :
    Except Str Unit × FireStore :=
  match currentUser with
  | none => (.error "Must be authenticated to update articles".toList, store)
  | some _ =>
    if store.any (fun p => p.1 = articleId) then
      (.ok (), store.map
        (fun p => if p.1 = articleId then (p.1, updates p.2) else p))
    else (.error "No document to update".toList, store)

/-- Translation of `unpublishArticle` from `articleService.ts`: requires an authenticated
user, then deletes the document with `deleteDoc`. -/
def unpublishArticle (currentUser : Option User) (articleId : Str)
    (store : FireStore) : Except Str Unit × FireStore :=
  match currentUser with
  | none =>
    (.error "Must be authenticated to unpublish articles".toList, store)
  | some _ => (.ok (), store.filter (fun p => p.1 ≠ articleId))

/-- The query `where('isPublished', '==', true), orderBy('publishedAt',
'desc')` run against the store: keep the documents whose `isPublished`
field equals `true` and sort them by `publishedAt` descending. -/
def queryPublishedDesc (store : FireStore) : List Article :=
  List.insertionSort pubDesc
    ((store.map (·.2)).filter (fun a => a.isPublished = some true))

/-- Translation of `getAllPublishedArticles` from `articleService.ts`. -/
def getAllPublishedArticles (store : FireStore) : List Article :=
  queryPublishedDesc store

/-- Translation of `subscribeToPublishedArticles` from `articleService.ts`: the list a
snapshot of `store` delivers to the callback (same query as
`getAllPublishedArticles`). -/
def subscribeSnapshot (store : FireStore) : List Article :=
  queryPublishedDesc store

/-! ## Image tag helpers (`components/Editor.tsx`) -/

/-- Layout union type `'left' | 'right' | 'center' | 'full'`. -/
inductive Layout where
  | left | right | center | full
deriving DecidableEq, Repr

/-- The string a layout value renders as inside the tag. -/
def Layout.toStr : Layout → Str
  | .left => "left".toList
  | .right => "right".toList
  | .center => "center".toList
  | .full => "full".toList

/-- Interface `ImageConfig` from `Editor.tsx`. -/
structure ImageConfig where
  caption : Str
  layout : Layout
  width : Str
  height : Str
  refId : Str
deriving DecidableEq, Repr

/-- The result of `parseAlt` (the `layout` field is produced by an
unchecked `as any` cast, so it is a raw string here). -/
structure ParsedAlt where
  caption : Str
  layout : Str
  width : Str
  height : Str
deriving DecidableEq, Repr

/-- Translation of `parseAlt` from `Editor.tsx`: split the alt text on `'|'` and default
each missing or empty component (`parts[i] || dflt`). -/
def parseAlt (alt : Str) : ParsedAlt :=
  let parts := splitOnChar '|' alt
  { caption := jsOr parts[0]? [],
    layout := jsOr parts[1]? "center".toList,
    width := jsOr parts[2]? "auto".toList,
    height := jsOr parts[3]? "auto".toList }

/-- The alt segment `buildTag` puts between `![` and `]`:
`caption|layout|width|height`. -/
def buildAlt (config : ImageConfig) : Str :=
  config.caption ++ '|' :: config.layout.toStr ++ '|' :: config.width
    ++ '|' :: config.height

/-- Translation of `buildTag` from `Editor.tsx`:
`` `![${caption}|${layout}|${width}|${height}][${refId}]` ``. -/
def buildTag (config : ImageConfig) : Str :=
  '!' :: '[' :: buildAlt config ++ ']' :: '[' :: config.refId ++ [']']

/-! ## Saving and deleting articles (`App.tsx`) -/

/-- The per-category branch of `handleSaveArticle` in `App.tsx`: on the
matching category, replace the article with the same id in place when one
exists, and prepend the article otherwise. -/
def saveIntoCategory (categoryId : Str) (article : Article)
    (cat : Category) : Category :=
  if cat.id = categoryId then
    match cat.articles.findIdx? (fun a => a.id = article.id) with
    | some i => { cat with articles := cat.articles.set i article }
    | none => { cat with articles := article :: cat.articles }
  else cat

/-- Translation of `handleSaveArticle` from `App.tsx` (the pure state update applied to
the category list). -/
def handleSaveArticle (categoryId : Str) (article : Article)
    (cats : List Category) : List Category :=
  cats.map (saveIntoCategory categoryId article)

/-- Translation of `handleDeleteArticle` from `App.tsx`. -/
def handleDeleteArticle (categoryId : Str) (articleId : Str)
    (cats : List Category) : List Category :=
  cats.map (fun cat =>
    if cat.id = categoryId then
      { cat with articles := cat.articles.filter (fun a => a.id ≠ articleId) }
    else cat)

/-! ## Saving from the editor (`components/Editor.tsx`) -/

/-- Ceiling division `Math.ceil(n / 200)` for a natural `n`. -/
def ceilDiv200 (n : Nat) : Nat := (n + 199) / 200

/-- Translation of `executeSave` from `Editor.tsx` as a pure function of the editor
fields.  `nowId` stands for `Date.now().toString()` and `dateStr` for the
formatted `new Date().toLocaleDateString(...)`; `galleryImages` is the
list of `{id, url}` pairs.  Returns `none` when the guard
`!title || !content || !selectedCategoryId` aborts the save. -/
def executeSave (title content definitions : Str)
    (selectedCategoryId selectedArticleId : Str) (nowId dateStr : Str)
    (coverImage : Option Str) (galleryImages : List (Str × Str))
    (location musicUrl : Str) (isDraft : Bool) : Option Article :=
  if title = [] ∨ content = [] ∨ selectedCategoryId = [] then none
  else
    let id := if selectedArticleId = [] then nowId else selectedArticleId
    let combinedContent :=
      trim (trim content ++ '\n' :: '\n' :: trim definitions)
    let allImages := galleryImages.map (·.2)
    some
      { id := id,
        title := title,
        date := dateStr,
        readTime :=
          (Nat.repr (ceilDiv200 (splitOnChar ' ' combinedContent).length)).toList
            ++ " min read".toList,
        preview := combinedContent.take 100 ++ "...".toList,
        content := combinedContent,
        imageUrl := if strTruthy coverImage then coverImage else none,
        images := some allImages,
        location := if location = [] then none else some location,
        musicUrl := if musicUrl = [] then none else some musicUrl,
        isDraft := some isDraft }

/-! ## Separating body and image definitions (`components/Editor.tsx`) -/

/-- Well-formedness of an article map: keys are distinct and each entry is
keyed by its article's id. -/
def MapWF (m : List (Str × Article)) : Prop :=
  (m.map (·.1)).Nodup ∧ ∀ p ∈ m, p.1 = p.2.id

/-- Equality of all `Category` fields except `articles`. -/
def coverEq (x y : Category) : Prop :=
  x.id = y.id ∧ x.title = y.title ∧ x.icon = y.icon ∧
  x.colorHex = y.colorHex ∧ x.backgroundImage = y.backgroundImage ∧
  x.isLightCover = y.isLightCover

/-- Sample local article `a` (concrete data for witnesses). -/
def artA : Article :=
  { id := ['a'], title := "A".toList, date := [], readTime := [],
    preview := [], content := "local".toList }

/-- Sample draft article `b`. -/
def artB : Article :=
  { id := ['b'], title := "B".toList, date := [], readTime := [],
    preview := [], content := [], isDraft := some true }

/-- Sample published version of article `a` in category `c`. -/
def artA2 : Article :=
  { id := ['a'], title := "A2".toList, date := [], readTime := [],
    preview := [], content := "remote".toList, isPublished := some true,
    publishedAt := some "2024".toList, categoryId := some ['c'] }

/-- Sample category `c` holding `artA` and the draft `artB`. -/
def catC : Category :=
  { id := ['c'], title := "C".toList, icon := [], colorHex := [],
    backgroundImage := [], articles := [artA, artB] }

/-- A category whose only article is the *current* version of `a`
(`artA2`-titled `new`), used for the routing counterexample. -/
def artNewR : Article :=
  { id := ['a'], title := "new".toList, date := [], readTime := [],
    preview := [], content := [] }

/-- A stale version of the same article (same id, older title). -/
def artOldR : Article :=
  { id := ['a'], title := "old".toList, date := [], readTime := [],
    preview := [], content := [] }

/-- The category used in the routing counterexample. -/
def catR : Category :=
  { id := ['c'], title := [], icon := [], colorHex := [],
    backgroundImage := [], articles := [artNewR] }

/-- An older published document. -/
def pubOld : Article :=
  { id := ['o'], title := "Old".toList, date := [], readTime := [],
    preview := [], content := [], isPublished := some true,
    publishedAt := some "2020".toList }

/-- A stored document that is not published. -/
def draftDoc : Article :=
  { id := ['d'], title := "D".toList, date := [], readTime := [],
    preview := [], content := [] }

/-- A sample remote store with two published and one unpublished doc. -/
def storeW : FireStore :=
  [(['o'], pubOld), (['a'], artA2), (['d'], draftDoc)]

/-- An image configuration whose width contains a `'|'`. -/
def cfgBad : ImageConfig :=
  { caption := "cap".toList, layout := .center, width := "1|2".toList,
    height := ['3'], refId := ['r'] }

/-- A well-formed image configuration. -/
def cfgGood : ImageConfig :=
  { caption := "a cat".toList, layout := .left, width := "300px".toList,
    height := "200px".toList, refId := "img-1".toList }

theorem splitOnChar_cons (sep c : Char) (rest : Str) :
    splitOnChar sep (c :: rest) =
      if c = sep then [] :: splitOnChar sep rest
      else (splitOnChar sep rest).modifyHead (c :: ·) := rfl

theorem splitOnChar_ne_nil (sep : Char) (s : Str) : splitOnChar sep s ≠ [] := by
  induction s with
  | nil => simp [splitOnChar]
  | cons c rest ih =>
    rw [splitOnChar_cons]
    split
    · simp
    · cases h : splitOnChar sep rest with
      | nil => exact absurd h ih
      | cons a l => simp

theorem modifyHead_append {α : Type} (f : α → α) (as bs : List α)
    (h : as ≠ []) : (as ++ bs).modifyHead f = as.modifyHead f ++ bs := by
  cases as with
  | nil => exact absurd rfl h
  | cons a l => simp

theorem splitOnChar_append (sep : Char) (xs ys : Str) :
    splitOnChar sep (xs ++ sep :: ys) =
      splitOnChar sep xs ++ splitOnChar sep ys := by
  induction xs with
  | nil => simp [splitOnChar, splitOnChar_cons]
  | cons c rest ih =>
    by_cases hc : c = sep
    · subst hc
      rw [List.cons_append, splitOnChar_cons, if_pos rfl, ih,
        splitOnChar_cons, if_pos rfl]
      rfl
    · rw [List.cons_append, splitOnChar_cons, if_neg hc, ih,
        modifyHead_append _ _ _ (splitOnChar_ne_nil sep rest),
        splitOnChar_cons, if_neg hc]

theorem splitOnChar_of_not_mem {sep : Char} {s : Str} (h : sep ∉ s) :
    splitOnChar sep s = [s] := by
  induction s with
  | nil => rfl
  | cons c rest ih =>
    simp only [List.mem_cons, not_or] at h
    have hcs : ¬ c = sep := fun hh => h.1 hh.symm
    rw [splitOnChar_cons, if_neg hcs, ih h.2]
    rfl

theorem joinSep_cons (sep : Char) (s : Str) {l : List Str} (h : l ≠ []) :
    joinSep sep (s :: l) = s ++ sep :: joinSep sep l := by
  cases l with
  | nil => exact absurd rfl h
  | cons t rest => rfl

theorem joinSep_append (sep : Char) {xs ys : List Str} (hx : xs ≠ [])
    (hy : ys ≠ []) :
    joinSep sep (xs ++ ys) = joinSep sep xs ++ sep :: joinSep sep ys := by
  induction xs with
  | nil => exact absurd rfl hx
  | cons x xs ih =>
    cases xs with
    | nil => simpa using joinSep_cons sep x hy
    | cons t rest =>
      rw [List.cons_append,
        joinSep_cons sep x (by simp : (t :: rest) ++ ys ≠ []),
        ih (by simp), joinSep_cons sep x (by simp : t :: rest ≠ [])]
      simp

theorem joinSep_replicate_nil (sep : Char) (n : Nat) :
    joinSep sep (List.replicate (n + 1) ([] : Str)) = List.replicate n sep := by
  induction n with
  | zero => rfl
  | succ m ih =>
    rw [List.replicate_succ,
      joinSep_cons sep [] (by simp : List.replicate (m + 1) ([] : Str) ≠ []),
      ih]
    simp [List.replicate_succ]

theorem head_dropWhile {α : Type} {p : α → Bool} {l t : List α} {c : α}
    (h : l.dropWhile p = c :: t) : p c = false := by
  induction l with
  | nil => simp [List.dropWhile] at h
  | cons a l ih =>
    rw [List.dropWhile_cons] at h
    split at h
    · exact ih h
    · cases h
      simpa using ‹¬ p c = true›

theorem trimLeft_trim (s : Str) : trimLeft (trim s) = trim s := by
  unfold trim trimLeft
  exact List.dropWhile_idempotent _ _

theorem trimRight_trim (s : Str) : trimRight (trim s) = trim s := by
  unfold trim
  set y := trimRight s with hy
  cases hz : trimLeft y with
  | nil => rfl
  | cons c t =>
    -- the suffix `c :: t` of `y` ends with `y`'s last character, which the
    -- definition of `trimRight` guarantees is not whitespace
    have hsuf : (c :: t) <:+ y := hz ▸ List.dropWhile_suffix (l := y) isWs
    have hpre : (c :: t).reverse <+: y.reverse := List.reverse_prefix.mpr hsuf
    have hyrev : y.reverse = List.dropWhile isWs s.reverse := by
      rw [hy]; unfold trimRight; rw [List.reverse_reverse]
    cases hdrop : List.dropWhile isWs s.reverse with
    | nil =>
      exfalso
      have hynil : y = [] := by
        have h1 : y.reverse = [] := hyrev.trans hdrop
        simpa using congrArg List.reverse h1
      rw [hynil] at hz
      simp [trimLeft] at hz
    | cons d u =>
      have hd : isWs d = false := head_dropWhile hdrop
      rw [hyrev, hdrop] at hpre
      obtain ⟨k, hk⟩ := hpre
      cases he : (c :: t).reverse with
      | nil => simp at he
      | cons e w =>
        rw [he] at hk
        have hde : d = e := by
          rw [List.cons_append] at hk
          exact (List.cons_eq_cons.mp hk).1.symm
        have hew : isWs e = false := hde ▸ hd
        unfold trimRight
        rw [he, List.dropWhile_cons, hew]
        simp only [Bool.false_eq_true, if_false]
        rw [← he, List.reverse_reverse]

theorem strLe_total (x y : Str) : strLe x y = true ∨ strLe y x = true := by
  induction x generalizing y with
  | nil => left; rfl
  | cons a xs ih =>
    cases y with
    | nil => right; rfl
    | cons b ys =>
      rcases Nat.lt_trichotomy a.toNat b.toNat with h | h | h
      · left; simp [strLe, h]
      · rcases ih ys with h2 | h2
        · left; simp [strLe, h, h2]
        · right; simp [strLe, h.symm, h2]
      · right; simp [strLe, h]

theorem strLe_trans {x y z : Str} (h1 : strLe x y = true)
    (h2 : strLe y z = true) : strLe x z = true := by
  induction x generalizing y z with
  | nil => rfl
  | cons a xs ih =>
    cases y with
    | nil => simp [strLe] at h1
    | cons b ys =>
      cases z with
      | nil => simp [strLe] at h2
      | cons c zs =>
        simp only [strLe] at h1 h2 ⊢
        rcases Nat.lt_trichotomy a.toNat b.toNat with hab | hab | hab
        · rcases Nat.lt_trichotomy b.toNat c.toNat with hbc | hbc | hbc
          · simp [Nat.lt_trans hab hbc]
          · simp [hbc ▸ hab]
          · simp [hbc, Nat.lt_asymm hbc] at h2
        · rcases Nat.lt_trichotomy b.toNat c.toNat with hbc | hbc | hbc
          · simp [hab ▸ hbc]
          · have h1s : strLe xs ys = true := by
              rw [hab] at h1; simpa [Nat.lt_irrefl] using h1
            have h2s : strLe ys zs = true := by
              rw [hbc] at h2; simpa [Nat.lt_irrefl] using h2
            rw [hab, hbc]
            simpa [Nat.lt_irrefl] using ih h1s h2s
          · simp [hbc, Nat.lt_asymm hbc] at h2
        · simp [hab, Nat.lt_asymm hab] at h1

@[instance] theorem pubDesc_isTotal : IsTotal Article pubDesc :=
  ⟨fun x y => by
    unfold pubDesc
    exact strLe_total (y.publishedAt.getD []) (x.publishedAt.getD [])⟩

@[instance] theorem pubDesc_isTrans : IsTrans Article pubDesc :=
  ⟨fun x y z h1 h2 => by
    unfold pubDesc at h1 h2 ⊢
    exact strLe_trans h2 h1⟩

/-! ## Association-map lemmas for the merge effect -/

theorem mem_mapSet {m : List (Str × Article)} {k : Str} {v : Article}
    {p : Str × Article} :
    p ∈ mapSet m k v ↔ p = (k, v) ∨ (p ∈ m ∧ p.1 ≠ k) := by
  unfold mapSet
  by_cases hex : m.any (fun q => q.1 = k)
  · simp only [hex, if_true]
    constructor
    · intro hp
      obtain ⟨q, hq, hfq⟩ := List.mem_map.mp hp
      by_cases hqk : q.1 = k
      · left; rw [if_pos hqk] at hfq; exact hfq.symm
      · right; rw [if_neg hqk] at hfq; exact ⟨hfq ▸ hq, hfq ▸ hqk⟩
    · rintro (rfl | ⟨hpm, hpk⟩)
      · obtain ⟨q, hq, hqk⟩ := List.any_eq_true.mp hex
        refine List.mem_map.mpr ⟨q, hq, ?_⟩
        rw [if_pos (by simpa using hqk)]
      · exact List.mem_map.mpr ⟨p, hpm, by rw [if_neg hpk]⟩
  · simp only [hex, if_false]
    rw [List.any_eq_true] at hex
    push_neg at hex
    constructor
    · intro hp
      rcases List.mem_append.mp hp with hpm | hps
      · exact Or.inr ⟨hpm, by simpa using hex p hpm⟩
      · left; simpa using hps
    · rintro (rfl | ⟨hpm, _⟩)
      · simp
      · exact List.mem_append.mpr (Or.inl hpm)

theorem keys_mapSet (m : List (Str × Article)) (k : Str) (v : Article) :
    (mapSet m k v).map (·.1) =
      if k ∈ m.map (·.1) then m.map (·.1) else m.map (·.1) ++ [k] := by
  unfold mapSet
  have hiff : (m.any (fun q => q.1 = k)) = true ↔ k ∈ m.map (·.1) := by
    rw [List.any_eq_true]
    simp only [List.mem_map]
    constructor
    · rintro ⟨q, hq, hqk⟩; exact ⟨q, hq, by simpa using hqk⟩
    · rintro ⟨q, hq, hqk⟩; exact ⟨q, hq, by simpa using hqk⟩
  by_cases hex : m.any (fun q => q.1 = k)
  · rw [if_pos hex, if_pos (hiff.mp hex), List.map_map]
    refine List.map_congr_left ?_
    intro q _
    by_cases hqk : q.1 = k
    · simp [hqk]
    · simp [hqk]
  · rw [if_neg hex, if_neg (fun hk => hex (hiff.mpr hk)), List.map_append]
    rfl

theorem MapWF_mapSet {m : List (Str × Article)} {v : Article}
    (h : MapWF m) : MapWF (mapSet m v.id v) := by
  constructor
  · rw [keys_mapSet]
    split
    next => exact h.1
    next hk =>
      refine List.nodup_append.mpr ⟨h.1, List.nodup_singleton _, ?_⟩
      intro a ha hb
      rw [List.mem_singleton] at hb
      exact hk (hb ▸ ha)
  · intro p hp
    rcases mem_mapSet.mp hp with rfl | ⟨hpm, _⟩
    · rfl
    · exact h.2 p hpm

theorem MapWF_mapSetAll {m : List (Str × Article)} (arts : List Article)
    (h : MapWF m) : MapWF (mapSetAll m arts) := by
  induction arts generalizing m with
  | nil => exact h
  | cons a arts ih => exact ih (MapWF_mapSet h)

theorem mem_mapSetAll {arts : List Article}
    (harts : (arts.map (·.id)).Nodup) (m : List (Str × Article))
    (p : Str × Article) :
    p ∈ mapSetAll m arts ↔
      (∃ a ∈ arts, p = (a.id, a)) ∨ (p ∈ m ∧ p.1 ∉ arts.map (·.id)) := by
  induction arts generalizing m with
  | nil => simp [mapSetAll]
  | cons a arts ih =>
    rw [List.map_cons, List.nodup_cons] at harts
    obtain ⟨hne, htl⟩ := harts
    show p ∈ mapSetAll (mapSet m a.id a) arts ↔ _
    rw [ih htl]
    constructor
    · rintro (⟨b, hb, rfl⟩ | ⟨hpm, hpk⟩)
      · exact Or.inl ⟨b, List.mem_cons_of_mem a hb, rfl⟩
      · rcases mem_mapSet.mp hpm with rfl | ⟨hpm2, hpk2⟩
        · exact Or.inl ⟨a, List.mem_cons_self a arts, rfl⟩
        · refine Or.inr ⟨hpm2, ?_⟩
          simp only [List.map_cons, List.mem_cons, not_or]
          exact ⟨hpk2, hpk⟩
    · rintro (⟨b, hb, rfl⟩ | ⟨hpm, hpk⟩)
      · rcases List.mem_cons.mp hb with rfl | hb2
        · exact Or.inr ⟨mem_mapSet.mpr (Or.inl rfl), hne⟩
        · exact Or.inl ⟨b, hb2, rfl⟩
      · simp only [List.map_cons, List.mem_cons, not_or] at hpk
        exact Or.inr ⟨mem_mapSet.mpr (Or.inr ⟨hpm, hpk.1⟩), hpk.2⟩

/-! ## Claim C1 -/

/-- C1: for every local category list and list of published articles, the
merge step produces, for each category `c`, an article list whose entries
are exactly the local articles of `c` together with the published articles
whose `categoryId` equals `c.id`, deduplicated by article id with the
published version taking precedence, and leaves every other field of `c`
unchanged.  (Stated under the invariant that article ids are unique within
the local category and among the published documents, which Firestore
document ids guarantee.) -/
theorem merge_effect_exact (categories : List Category)
    (publishedArticles : List Article) (c : Category) (hc : c ∈ categories)
    (hl : (c.articles.map (·.id)).Nodup)
    (hp : (publishedArticles.map (·.id)).Nodup) :
    mergeCategory publishedArticles c ∈
        mergeCategories categories publishedArticles ∧
    coverEq (mergeCategory publishedArticles c) c ∧
    ((mergeCategory publishedArticles c).articles.map (·.id)).Nodup ∧
    ∀ a : Article,
      a ∈ (mergeCategory publishedArticles c).articles ↔
        a ∈ publishedArticles.filter (fun b => b.categoryId = some c.id) ∨
        (a ∈ c.articles ∧
          a.id ∉ (publishedArticles.filter
            (fun b => b.categoryId = some c.id)).map (·.id)) := by
  set pubsFor :=
    publishedArticles.filter (fun b => b.categoryId = some c.id) with hpf
  have hpfn : (pubsFor.map (·.id)).Nodup :=
    hp.sublist ((List.filter_sublist _).map _)
  have hwf0 : MapWF ([] : List (Str × Article)) := ⟨List.nodup_nil, by simp⟩
  have hwf2 : MapWF (mapSetAll (mapSetAll [] c.articles) pubsFor) :=
    MapWF_mapSetAll _ (MapWF_mapSetAll _ hwf0)
  have hart : (mergeCategory publishedArticles c).articles
      = (mapSetAll (mapSetAll [] c.articles) pubsFor).map (·.2) := rfl
  refine ⟨List.mem_map_of_mem _ hc, ⟨rfl, rfl, rfl, rfl, rfl, rfl⟩, ?_, ?_⟩
  · rw [hart, List.map_map]
    have hcg : ∀ p ∈ mapSetAll (mapSetAll [] c.articles) pubsFor,
        ((·.id) ∘ (·.2) : Str × Article → Str) p = p.1 :=
      fun p hpm => (hwf2.2 p hpm).symm
    rw [List.map_congr_left hcg]
    exact hwf2.1
  · intro a
    rw [hart]
    constructor
    · intro ha
      obtain ⟨p, hpM, hpa⟩ := List.mem_map.mp ha
      rcases (mem_mapSetAll hpfn _ p).mp hpM with ⟨b, hb, rfl⟩ | ⟨hp1, hp2⟩
      · exact Or.inl (hpa ▸ hb)
      · rcases (mem_mapSetAll hl _ p).mp hp1 with ⟨b, hb, rfl⟩ | ⟨hmem, _⟩
        · refine Or.inr ⟨hpa ▸ hb, ?_⟩
          simpa [← hpa] using hp2
        · simp at hmem
    · intro ha
      rcases ha with hpub | ⟨hloc, hni⟩
      · exact List.mem_map.mpr ⟨(a.id, a),
          (mem_mapSetAll hpfn _ _).mpr (Or.inl ⟨a, hpub, rfl⟩), rfl⟩
      · refine List.mem_map.mpr ⟨(a.id, a),
          (mem_mapSetAll hpfn _ _).mpr (Or.inr ⟨?_, hni⟩), rfl⟩
        exact (mem_mapSetAll hl _ _).mpr (Or.inl ⟨a, hloc, rfl⟩)

/-- Witness for C1 at concrete data: merging category `c` (local `artA`
and draft `artB`) with the published `artA2` keeps the published version
of `a` and the local `b`. -/
theorem merge_effect_exact_witness :
    artA2 ∈ (mergeCategory [artA2] catC).articles ∧
    artB ∈ (mergeCategory [artA2] catC).articles ∧
    artA ∉ (mergeCategory [artA2] catC).articles := by
  have h := merge_effect_exact [catC] [artA2] catC (by decide) (by decide)
    (by decide)
  refine ⟨(h.2.2.2 artA2).mpr (Or.inl (by decide)),
    (h.2.2.2 artB).mpr (Or.inr (by decide)), ?_⟩
  intro hmem
  rcases (h.2.2.2 artA).mp hmem with hc | hc
  · exact absurd hc (by decide)
  · exact absurd hc (by decide)

/-! ## Claim C2 -/

/-- C2: the open-book reading view shows exactly the category's
non-draft articles, in their original relative order, and neither the
index (`visibleArticles`) nor the initially opened content page
(`initialActiveArticle`) ever contains a draft. -/
theorem visible_articles_no_drafts (category : Category) :
    (∀ a ∈ visibleArticles category, a.isDraft ≠ some true) ∧
    List.Sublist (visibleArticles category) category.articles ∧
    (∀ a ∈ category.articles, a.isDraft ≠ some true →
      a ∈ visibleArticles category) ∧
    (∀ (aid : Option Str) (art : Article),
      initialActiveArticle category aid = some art →
        art.isDraft ≠ some true) := by
  have key : ∀ a : Article,
      (!(a.isDraft.getD false)) = true ↔ a.isDraft ≠ some true := by
    intro a
    cases h : a.isDraft with
    | none => simp
    | some b => cases b <;> simp
  have hvis : ∀ a ∈ visibleArticles category, a.isDraft ≠ some true := by
    intro a ha
    exact (key a).mp (List.mem_filter.mp ha).2
  refine ⟨hvis, List.filter_sublist _, ?_, ?_⟩
  · intro a ha hnd
    exact List.mem_filter.mpr ⟨ha, (key a).mpr hnd⟩
  · intro aid art h
    unfold initialActiveArticle at h
    split at h
    · exact hvis art (List.mem_of_find?_eq_some h)
    · cases hv : visibleArticles category with
      | nil => rw [hv] at h; simp at h
      | cons x xs =>
        rw [hv] at h
        simp only [List.head?_cons, Option.some.injEq] at h
        exact h ▸ hvis x (hv ▸ List.mem_cons_self x xs)

/-- Witness for C2: in the sample category, the non-draft `artA` is
visible and is not a draft. -/
theorem visible_articles_no_drafts_witness :
    artA ∈ visibleArticles catC ∧ artA.isDraft ≠ some true :=
  ⟨by decide, (visible_articles_no_drafts catC).1 artA (by decide)⟩

/-! ## Claim C3 -/

theorem syncCategoryState_currentArticle (cat : Category) (s : AppState) :
    (syncCategoryState cat s).currentArticle = s.currentArticle := by
  unfold syncCategoryState
  split
  · split <;> rfl
  · rfl

/-- Counterexample to C3 as stated.  First: on path `/c/a` with the
category and article both found, the effect does *not* set the current
article to the category's article when a stale article with the same id
is already current (the guard `currentArticle?.id !== art.id` skips the
update).  Second: on the root path with the controller idle but no
category selected, the current article is *not* cleared. -/
theorem routing_sync_counterexample :
    (routeParts "/c/a".toList = ["c".toList, "a".toList] ∧
     [catR].find? (fun c => c.id = "c".toList) = some catR ∧
     catR.articles.find? (fun a => a.id = "a".toList) = some artNewR ∧
     artOldR ≠ artNewR ∧
     (routingSync [catR] "/c/a".toList
        ⟨.READING, some catR, some artOldR⟩).currentArticle
       = some artOldR) ∧
    ((routingSync [] "/".toList
        ⟨.IDLE, none, some artOldR⟩).selectedCategory = none ∧
     (routingSync [] "/".toList
        ⟨.IDLE, none, some artOldR⟩).currentArticle = some artOldR) := by
  decide

/-- C3 (amended): whenever the path is `/<catId>/<artId>` and both match,
the routing-sync effect makes the current article's id `artId`, and sets
the current article to the found article whenever the currently selected
article's id differs (when the ids already agree the stale current
article is left in place); on `/<catId>` with a match the current article
is cleared; on the root path with the controller idle the selected
category is cleared, and the current article is cleared provided a
category was selected (otherwise the state is left untouched). -/
theorem routing_sync_amended (cats : List Category) (s : AppState)
    (p1 p2 p3 : Str) (cid aid : Str) (cat : Category) (art : Article) :
    (routeParts p1 = [cid, aid] →
      cats.find? (fun c => c.id = cid) = some cat →
      cat.articles.find? (fun a => a.id = aid) = some art →
      ((routingSync cats p1 s).currentArticle.map (·.id) = some art.id ∧
       (s.currentArticle.map (·.id) ≠ some art.id →
         (routingSync cats p1 s).currentArticle = some art))) ∧
    (routeParts p2 = [cid] →
      cats.find? (fun c => c.id = cid) = some cat →
      (routingSync cats p2 s).currentArticle = none) ∧
    (routeParts p3 = [] → s.animationPhase = .IDLE →
      ((routingSync cats p3 s).selectedCategory = none ∧
       (s.selectedCategory.isSome →
         (routingSync cats p3 s).currentArticle = none))) := by
  refine ⟨?_, ?_, ?_⟩
  · intro h1 h2 h3
    simp only [routingSync, h1, h2, h3, List.head?_cons,
      List.getElem?_cons_succ, List.getElem?_cons_zero]
    constructor
    · split
      next => simp
      next h =>
        rw [not_ne_iff] at h
        exact h
    · intro hne
      split
      next => simp
      next h =>
        rw [not_ne_iff, syncCategoryState_currentArticle] at h
        exact absurd h hne
  · intro h1 h2
    simp only [routingSync, h1, h2, List.head?_cons,
      List.getElem?_cons_succ, List.getElem?_nil]
    split
    next => rfl
    next h =>
      rw [Bool.not_eq_true] at h
      cases hc : (syncCategoryState cat s).currentArticle with
      | none => rfl
      | some a => rw [hc] at h; simp at h
  · intro h1 hph
    simp only [routingSync, h1, List.head?_nil, hph]
    have hcond : ¬(AnimationPhase.IDLE = AnimationPhase.READING ∨
        AnimationPhase.IDLE = AnimationPhase.ZOOMING) := by decide
    rw [if_neg hcond]
    split
    next => exact ⟨rfl, fun _ => rfl⟩
    next h =>
      rw [Bool.not_eq_true] at h
      have h' : s.selectedCategory = none := by
        cases hc : s.selectedCategory with
        | none => rfl
        | some a => rw [hc] at h; simp at h
      exact ⟨h', fun hs => absurd hs (by simp [h'])⟩

/-- Witness for the amended C3: a deep link to `/c/a` from the idle state
selects article `a` of category `c`. -/
theorem routing_sync_amended_witness :
    (routingSync [catR] "/c/a".toList
      ⟨.IDLE, none, none⟩).currentArticle = some artNewR := by
  have h := routing_sync_amended [catR] ⟨.IDLE, none, none⟩
    "/c/a".toList "/c".toList "/".toList "c".toList "a".toList catR artNewR
  exact (h.1 (by decide) (by decide) (by decide)).2 (by decide)

/-! ## Claim C4 -/

/-- C4: with `auth.currentUser` null, each remote mutating operation
returns an error whose message begins with `Must be authenticated` and
leaves the remote store unchanged (no write, update, or delete). -/
theorem auth_guard_no_write (a : Article) (categoryId now articleId : Str)
    (upd : Article → Article) (store : FireStore) :
    publishArticle none now a categoryId store =
      (.error "Must be authenticated to publish articles".toList, store) ∧
    updatePublishedArticle none articleId upd store =
      (.error "Must be authenticated to update articles".toList, store) ∧
    unpublishArticle none articleId store =
      (.error "Must be authenticated to unpublish articles".toList, store) ∧
    ("Must be authenticated".toList.isPrefixOf
      "Must be authenticated to publish articles".toList = true) ∧
    ("Must be authenticated".toList.isPrefixOf
      "Must be authenticated to update articles".toList = true) ∧
    ("Must be authenticated".toList.isPrefixOf
      "Must be authenticated to unpublish articles".toList = true) :=
  ⟨rfl, rfl, rfl, by decide, by decide, by decide⟩

/-! ## Claim C5 -/

/-- C5: the published-articles query (used by both
`getAllPublishedArticles` and the snapshot subscription) returns exactly
the stored documents whose `isPublished` field equals `true`, in
descending `publishedAt` order; no document with `isPublished` absent or
`false` is included. -/
theorem published_query_exact (store : FireStore) :
    List.Perm (getAllPublishedArticles store)
      ((store.map (·.2)).filter (fun a => a.isPublished = some true)) ∧
    List.Sorted pubDesc (getAllPublishedArticles store) ∧
    (∀ a ∈ getAllPublishedArticles store, a.isPublished = some true) ∧
    (∀ a ∈ store.map (·.2), a.isPublished = some true →
      a ∈ getAllPublishedArticles store) ∧
    subscribeSnapshot store = getAllPublishedArticles store := by
  unfold getAllPublishedArticles subscribeSnapshot queryPublishedDesc
  have hperm := List.perm_insertionSort pubDesc
    ((store.map (·.2)).filter (fun a => a.isPublished = some true))
  refine ⟨hperm, List.sorted_insertionSort pubDesc _, ?_, ?_, rfl⟩
  · intro a ha
    have hmem := hperm.mem_iff.mp ha
    have := (List.mem_filter.mp hmem).2
    simpa using this
  · intro a ha hp
    exact hperm.mem_iff.mpr (List.mem_filter.mpr ⟨ha, by simpa using hp⟩)

/-- Witness for C5 on the sample store: the published `artA2` is in the
result, and every returned document is published. -/
theorem published_query_exact_witness :
    artA2 ∈ getAllPublishedArticles storeW ∧
    (∀ a ∈ getAllPublishedArticles storeW, a.isPublished = some true) := by
  have h := published_query_exact storeW
  exact ⟨h.2.2.2.1 artA2 (by decide) (by decide), h.2.2.1⟩

/-! ## Claim C6 -/

theorem jsOr_some (s d : Str) : jsOr (some s) d = if s = [] then d else s :=
  rfl

theorem jsOr_some_nil (s : Str) : jsOr (some s) [] = s := by
  rw [jsOr_some]
  split
  next h => exact h.symm
  next => rfl

theorem jsOr_some_of_ne {s : Str} (d : Str) (h : s ≠ []) :
    jsOr (some s) d = s := by
  rw [jsOr_some, if_neg h]

theorem layout_toStr_ne_nil (l : Layout) : l.toStr ≠ [] := by
  cases l <;> decide

theorem layout_toStr_no_bar (l : Layout) : '|' ∉ l.toStr := by
  cases l <;> decide

/-- Counterexample to C6 as stated: the configuration `cfgBad` has a
`'|'`-free caption and non-empty layout, width, and height, yet parsing
the alt segment built by `buildTag` does not recover its width and
height, because the `'|'` inside the width shifts the split. -/
theorem parse_build_counterexample :
    ('|' ∉ cfgBad.caption) ∧ cfgBad.layout.toStr ≠ [] ∧
    cfgBad.width ≠ [] ∧ cfgBad.height ≠ [] ∧
    (parseAlt (buildAlt cfgBad)).width ≠ cfgBad.width ∧
    (parseAlt (buildAlt cfgBad)).height ≠ cfgBad.height := by
  refine ⟨by decide, by decide, by decide, by decide, by decide, by decide⟩

/-- C6 (amended): the function `parseAlt` is a left inverse of `buildTag`'s alt
construction for every configuration whose caption, width, and height
contain no `'|'` and whose width and height are non-empty; and for an
alt string with missing components the parsed caption defaults to the
empty string, the layout to `center`, and the width and height to
`auto`. -/
theorem parse_build_roundtrip (cfg : ImageConfig)
    (hc : '|' ∉ cfg.caption) (hw : '|' ∉ cfg.width) (hh : '|' ∉ cfg.height)
    (hw0 : cfg.width ≠ []) (hh0 : cfg.height ≠ []) :
    parseAlt (buildAlt cfg) =
      { caption := cfg.caption, layout := cfg.layout.toStr,
        width := cfg.width, height := cfg.height } ∧
    (∀ alt : Str,
      ((splitOnChar '|' alt).length ≤ 1 →
        (parseAlt alt).layout = "center".toList) ∧
      ((splitOnChar '|' alt).length ≤ 2 →
        (parseAlt alt).width = "auto".toList) ∧
      ((splitOnChar '|' alt).length ≤ 3 →
        (parseAlt alt).height = "auto".toList) ∧
      ((splitOnChar '|' alt)[0]? = some [] → (parseAlt alt).caption = [])) := by
  constructor
  · have hsplit : splitOnChar '|' (buildAlt cfg) =
        [cfg.caption, cfg.layout.toStr, cfg.width, cfg.height] := by
      unfold buildAlt
      rw [splitOnChar_append, splitOnChar_append, splitOnChar_append,
        splitOnChar_of_not_mem hc,
        splitOnChar_of_not_mem (layout_toStr_no_bar cfg.layout),
        splitOnChar_of_not_mem hw, splitOnChar_of_not_mem hh]
      rfl
    unfold parseAlt
    rw [hsplit]
    simp only [List.getElem?_cons_zero, List.getElem?_cons_succ]
    rw [jsOr_some_nil, jsOr_some_of_ne _ (layout_toStr_ne_nil cfg.layout),
      jsOr_some_of_ne _ hw0, jsOr_some_of_ne _ hh0]
  · intro alt
    refine ⟨?_, ?_, ?_, ?_⟩
    · intro h
      simp only [parseAlt]
      rw [List.getElem?_eq_none (n := 1) (by omega)]
      rfl
    · intro h
      simp only [parseAlt]
      rw [List.getElem?_eq_none (n := 2) (by omega)]
      rfl
    · intro h
      simp only [parseAlt]
      rw [List.getElem?_eq_none (n := 3) (by omega)]
      rfl
    · intro h
      simp only [parseAlt]
      rw [h]
      rfl

/-- Witness for the amended C6 at a concrete configuration. -/
theorem parse_build_roundtrip_witness :
    parseAlt (buildAlt cfgGood) =
      { caption := "a cat".toList, layout := "left".toList,
        width := "300px".toList, height := "200px".toList } :=
  (parse_build_roundtrip cfgGood (by decide) (by decide) (by decide)
    (by decide) (by decide)).1

/-! ## Claim C7 -/

/-- C7: the handlers `handleSaveArticle` and `handleDeleteArticle` preserve the number
of categories, leave every category with a different id completely
unchanged, and change only the `articles` field of the matching
category (id, title, icon, color, and cover settings are preserved
everywhere). -/
theorem save_delete_frame (cid : Str) (art : Article) (aid : Str)
    (cats : List Category) :
    (handleSaveArticle cid art cats).length = cats.length ∧
    (handleDeleteArticle cid aid cats).length = cats.length ∧
    ∀ (i : Nat) (c : Category), cats[i]? = some c →
      ∃ cS cD, (handleSaveArticle cid art cats)[i]? = some cS ∧
        (handleDeleteArticle cid aid cats)[i]? = some cD ∧
        coverEq cS c ∧ coverEq cD c ∧
        (c.id ≠ cid → cS = c ∧ cD = c) := by
  refine ⟨List.length_map _ _, List.length_map _ _, ?_⟩
  intro i c hc
  have hS : (handleSaveArticle cid art cats)[i]? =
      some (saveIntoCategory cid art c) := by
    unfold handleSaveArticle
    rw [List.getElem?_map, hc]
    rfl
  have hD : (handleDeleteArticle cid aid cats)[i]? =
      some (if c.id = cid then
        { c with articles := c.articles.filter (fun a => a.id ≠ aid) }
      else c) := by
    unfold handleDeleteArticle
    rw [List.getElem?_map, hc]
    rfl
  refine ⟨_, _, hS, hD, ?_, ?_, ?_⟩
  · unfold saveIntoCategory coverEq
    split
    · split <;> exact ⟨rfl, rfl, rfl, rfl, rfl, rfl⟩
    · exact ⟨rfl, rfl, rfl, rfl, rfl, rfl⟩
  · unfold coverEq
    split <;> exact ⟨rfl, rfl, rfl, rfl, rfl, rfl⟩
  · intro hne
    constructor
    · unfold saveIntoCategory
      rw [if_neg hne]
    · rw [if_neg hne]

/-- Witness for C7: saving into a non-matching category list leaves the
single category untouched. -/
theorem save_delete_frame_witness :
    (handleSaveArticle ['x'] artA [catC]).length = 1 ∧
    (handleSaveArticle ['x'] artA [catC])[0]? = some catC := by
  have h := save_delete_frame ['x'] artA ['y'] [catC]
  obtain ⟨cS, cD, hS, _, _, _, hne⟩ := h.2.2 0 catC (by decide)
  refine ⟨h.1, ?_⟩
  rw [hS, (hne (by decide)).1]

/-! ## Claim C8 -/

/-- C8: when the target category already contains an article with the
saved article's id, `handleSaveArticle` replaces that entry in place
(same position, same length, all other entries untouched); otherwise the
new article is prepended and the list grows by one. -/
theorem save_into_category_cases (cid : Str) (art : Article)
    (cat : Category) (hmatch : cat.id = cid) :
    ((∃ a ∈ cat.articles, a.id = art.id) →
      ∃ j old, cat.articles.findIdx? (fun a => a.id = art.id) = some j ∧
        cat.articles[j]? = some old ∧ old.id = art.id ∧
        (saveIntoCategory cid art cat).articles.length =
          cat.articles.length ∧
        (saveIntoCategory cid art cat).articles[j]? = some art ∧
        (∀ k, k ≠ j → (saveIntoCategory cid art cat).articles[k]? =
          cat.articles[k]?)) ∧
    ((∀ a ∈ cat.articles, a.id ≠ art.id) →
      (saveIntoCategory cid art cat).articles = art :: cat.articles ∧
      (saveIntoCategory cid art cat).articles.length =
        cat.articles.length + 1) := by
  constructor
  · rintro ⟨b, hb, hbid⟩
    cases hf : cat.articles.findIdx? (fun a => a.id = art.id) with
    | none =>
      exfalso
      have hall := List.findIdx?_eq_none_iff.mp hf
      have := hall b hb
      simp [hbid] at this
    | some j =>
      obtain ⟨hjlt, hpj, _⟩ := List.findIdx?_eq_some_iff_getElem.mp hf
      have hsave : (saveIntoCategory cid art cat).articles =
          cat.articles.set j art := by
        unfold saveIntoCategory
        rw [if_pos hmatch, hf]
      refine ⟨j, cat.articles.get ⟨j, hjlt⟩, rfl, ?_, ?_, ?_, ?_, ?_⟩
      · exact List.getElem?_eq_getElem hjlt
      · simpa using hpj
      · rw [hsave, List.length_set]
      · rw [hsave]
        exact List.getElem?_set_self hjlt
      · intro k hk
        rw [hsave]
        exact List.getElem?_set_ne (fun hjk => hk hjk.symm)
  · intro hall
    have hf : cat.articles.findIdx? (fun a => a.id = art.id) = none :=
      List.findIdx?_eq_none_iff.mpr (fun a ha => by simp [hall a ha])
    have hsave : (saveIntoCategory cid art cat).articles =
        art :: cat.articles := by
      unfold saveIntoCategory
      rw [if_pos hmatch, hf]
    exact ⟨hsave, by rw [hsave]; rfl⟩

/-- Witness for C8: saving a new version of article `a` into `catC`
replaces the entry at position 0 and keeps the length at 2. -/
theorem save_into_category_cases_witness :
    (saveIntoCategory ['c'] artNewR catC).articles[0]? = some artNewR ∧
    (saveIntoCategory ['c'] artNewR catC).articles.length = 2 := by
  have h := save_into_category_cases ['c'] artNewR catC (by decide)
  obtain ⟨j, old, hf, _, _, hlen, hset, _⟩ :=
    h.1 ⟨artA, by decide, by decide⟩
  have hj : j = 0 := by
    have hcalc : catC.articles.findIdx? (fun a => a.id = artNewR.id) =
        some 0 := by decide
    exact Option.some.inj (hf.symm.trans hcalc)
  subst hj
  refine ⟨hset, ?_⟩
  rw [hlen]
  rfl

/-! ## Claim C9 -/

/-- C9: for a non-empty title, non-empty body, and a definitions block
(and a selected category, without which nothing is saved), the article
built by `executeSave` has content equal to the trimmed body, a blank
line, and the trimmed definitions (the whole trimmed); preview equal to
the first 100 characters of the content followed by `...`; read time
equal to the ceiling of the space-separated word count over 200 followed
by ` min read`; and id equal to the selected article id when one is
selected, the fresh timestamp id otherwise. -/
theorem execute_save_fields
    (title content definitions catId aid nowId dateStr : Str)
    (coverImage : Option Str) (gallery : List (Str × Str))
    (loc music : Str) (isDraft : Bool)
    (ht : title ≠ []) (hc : content ≠ []) (hcat : catId ≠ []) :
    ∃ a, executeSave title content definitions catId aid nowId dateStr
        coverImage gallery loc music isDraft = some a ∧
      a.content = trim (trim content ++ '\n' :: '\n' :: trim definitions) ∧
      a.preview = a.content.take 100 ++ "...".toList ∧
      a.readTime =
        (Nat.repr (((splitOnChar ' ' a.content).length + 199) / 200)).toList
          ++ " min read".toList ∧
      a.title = title ∧
      a.id = (if aid = [] then nowId else aid) ∧
      a.isDraft = some isDraft := by
  unfold executeSave
  rw [if_neg (by simp [ht, hc, hcat])]
  exact ⟨_, rfl, rfl, rfl, rfl, rfl, rfl, rfl⟩

/-- Witness for C9 at concrete editor fields. -/
theorem execute_save_fields_witness :
    ∃ a, executeSave "t".toList "body text here".toList
        "[a]: data:image/png;x".toList "diary".toList [] "123".toList
        "Jan 1".toList none [] [] [] true = some a ∧
      a.content = "body text here\n\n[a]: data:image/png;x".toList ∧
      a.readTime = "1 min read".toList ∧
      a.id = "123".toList := by
  obtain ⟨a, he, hcont, _, hrt, _, hid, _⟩ :=
    execute_save_fields "t".toList "body text here".toList
      "[a]: data:image/png;x".toList "diary".toList [] "123".toList
      "Jan 1".toList none [] [] [] true
      (by decide) (by decide) (by decide)
  refine ⟨a, he, by rw [hcont]; decide, ?_, by rw [hid]; rfl⟩
  rw [hrt, hcont]
  decide

/-! ## Claim C10 -/

end Shironeko
